import Mathlib

/-!
# Verification of the `snip` snippet-store core

A shallow embedding of `src/snip/storage.py` and the relevant parts of
`src/snip/cli.py`, together with proofs of the specification's claims.

The snippets directory is modelled as an association list from file names to
file contents (`FS`).  A file is either a raw text file (a snippet body) or a
JSON metadata object with the four keys the program reads and writes
(`name`, `language`, `tags`, `created`); each key may be absent, mirroring
Python's `dict.get` defaults.  Operations that can raise (a `json.load`
failure on a non-JSON file) return `Except Unit`, with `.error ()` standing
for a propagated Python exception.
-/

namespace Snip

/-! ## Association lists: Python dicts and the snippets directory

`aGet` is `d.get(k)` / `path.exists()`-style lookup, `aInsert` is
`d[k] = v` (replace in place if the key is present, append otherwise —
this also models overwriting a file, which keeps its directory entry),
and `aErase` is `del d[k]` / `path.unlink()`. -/

def aGet {α : Type} : List (String × α) → String → Option α
  | [], _ => none
  | (q, v) :: rest, p => if q = p then some v else aGet rest p

def aInsert {α : Type} : List (String × α) → String → α → List (String × α)
  | [], p, v => [(p, v)]
  | (q, w) :: rest, p, v => if q = p then (p, v) :: rest else (q, w) :: aInsert rest p v

def aErase {α : Type} : List (String × α) → String → List (String × α)
  | [], _ => []
  | (q, w) :: rest, p => if q = p then aErase rest p else (q, w) :: aErase rest p

theorem aGet_aInsert_self {α : Type} (l : List (String × α)) (p : String) (v : α) :
    aGet (aInsert l p v) p = some v := by
  induction l with
  | nil => simp [aGet, aInsert]
  | cons kv rest ih =>
    obtain ⟨q, w⟩ := kv
    by_cases h : q = p
    · simp [aGet, aInsert, h]
    · simp [aGet, aInsert, h, ih]

theorem aGet_aInsert_ne {α : Type} (l : List (String × α)) (p q : String) (v : α)
    (h : q ≠ p) : aGet (aInsert l p v) q = aGet l q := by
  induction l with
  | nil => simp [aGet, aInsert, Ne.symm h]
  | cons kv rest ih =>
    obtain ⟨r, w⟩ := kv
    by_cases hr : r = p
    · subst hr
      simp [aGet, aInsert, Ne.symm h]
    · by_cases hq : r = q <;> simp [aGet, aInsert, hr, hq, ih, h]

theorem aGet_aErase_self {α : Type} (l : List (String × α)) (p : String) :
    aGet (aErase l p) p = none := by
  induction l with
  | nil => simp [aGet, aErase]
  | cons kv rest ih =>
    obtain ⟨q, w⟩ := kv
    by_cases h : q = p <;> simp [aGet, aErase, h, ih]

theorem aGet_aErase_ne {α : Type} (l : List (String × α)) (p q : String)
    (h : q ≠ p) : aGet (aErase l p) q = aGet l q := by
  induction l with
  | nil => simp [aGet, aErase]
  | cons kv rest ih =>
    obtain ⟨r, w⟩ := kv
    by_cases hr : r = p
    · subst hr
      simp [aGet, aErase, Ne.symm h, ih]
    · by_cases hq : r = q <;> simp [aGet, aErase, hr, hq, ih, h]

theorem aGet_aInsert_eq_of_aGet {α : Type} (l : List (String × α)) (p : String) (v : α)
    (h : aGet l p = some v) : ∀ q, aGet (aInsert l p v) q = aGet l q := by
  intro q
  by_cases hq : q = p
  · subst hq
    rw [aGet_aInsert_self, h]
  · exact aGet_aInsert_ne l p q v hq

theorem aGet_mem_values {α : Type} (l : List (String × α)) (p : String) (v : α)
    (h : aGet l p = some v) : v ∈ l.map Prod.snd := by
  induction l with
  | nil => simp [aGet] at h
  | cons kv rest ih =>
    obtain ⟨q, w⟩ := kv
    by_cases hq : q = p
    · simp [aGet, hq] at h
      simp [h]
    · simp [aGet, hq] at h
      simp [ih h]

theorem aGet_eq_none_of_not_mem_keys {α : Type} (l : List (String × α)) (p : String)
    (h : p ∉ l.map Prod.fst) : aGet l p = none := by
  induction l with
  | nil => rfl
  | cons kv rest ih =>
    obtain ⟨q, w⟩ := kv
    have h1 : q ≠ p := by
      intro hh
      exact h (by simp [hh])
    have h2 : p ∉ rest.map Prod.fst := by
      intro hh
      exact h (by simp [hh])
    simp [aGet, h1, ih h2]

/-! ## `LANG_EXTENSIONS` and `get_extension` (storage.py lines 12–74) -/

/-- The `LANG_EXTENSIONS` dict, entries in source order. -/
def LANG_EXTENSIONS : List (String × String) :=
  [("python", ".py"), ("javascript", ".js"), ("typescript", ".ts"), ("rust", ".rs"),
   ("go", ".go"), ("ruby", ".rb"), ("java", ".java"), ("c", ".c"), ("cpp", ".cpp"),
   ("c++", ".cpp"), ("csharp", ".cs"), ("c#", ".cs"), ("php", ".php"),
   ("swift", ".swift"), ("kotlin", ".kt"), ("scala", ".scala"), ("shell", ".sh"),
   ("bash", ".sh"), ("zsh", ".zsh"), ("fish", ".fish"), ("powershell", ".ps1"),
   ("sql", ".sql"), ("html", ".html"), ("css", ".css"), ("scss", ".scss"),
   ("sass", ".sass"), ("less", ".less"), ("json", ".json"), ("yaml", ".yaml"),
   ("yml", ".yaml"), ("toml", ".toml"), ("xml", ".xml"), ("markdown", ".md"),
   ("md", ".md"), ("lua", ".lua"), ("perl", ".pl"), ("r", ".r"), ("julia", ".jl"),
   ("haskell", ".hs"), ("elixir", ".ex"), ("erlang", ".erl"), ("clojure", ".clj"),
   ("lisp", ".lisp"), ("scheme", ".scm"), ("ocaml", ".ml"), ("fsharp", ".fs"),
   ("f#", ".fs"), ("zig", ".zig"), ("nim", ".nim"), ("v", ".v"), ("dart", ".dart"),
   ("vue", ".vue"), ("svelte", ".svelte"), ("jsx", ".jsx"), ("tsx", ".tsx"),
   ("text", ".txt")]

/-- Python's `str.lower()` (ASCII range, which covers every table key). -/
def strToLower (s : String) : String := String.mk (s.data.map Char.toLower)

/-- `get_extension`: `LANG_EXTENSIONS.get(language.lower(), ".txt")`. -/
def get_extension (language : String) : String :=
  (aGet LANG_EXTENSIONS (strToLower language)).getD ".txt"

/-! ## `sanitize_name` (storage.py lines 84–90) -/

/-- The character class of the regex `[<>:"/\\|?*]`. -/
def badChar (c : Char) : Bool :=
  c == '<' || c == '>' || c == ':' || c == '"' || c == '/' || c == '\\' ||
  c == '|' || c == '?' || c == '*'

/-- One step of `re.sub(r'[<>:"/\\|?*]', "_", name)`. -/
def replaceBad (c : Char) : Char := if badChar c then '_' else c

/-- The character set of Python's `str.strip(". ")`. -/
def stripDot (c : Char) : Bool := c == '.' || c == ' '

/-- Python's `s.strip(". ")`: remove leading and trailing dots and spaces. -/
def stripEnds (l : List Char) : List Char :=
  List.rdropWhile stripDot (List.dropWhile stripDot l)

/-- `sanitize_name`: substitute the forbidden characters, strip dots/spaces
from both ends, fall back to `"unnamed"` if the result is empty
(Python `sanitized or "unnamed"`). -/
def sanitize_name (name : String) : String :=
  let s := stripEnds (name.data.map replaceBad)
  if s = [] then "unnamed" else String.mk s

/-! ## The data model: metadata records and files -/

/-- A parsed `.meta.json` object, restricted to the four keys the program ever
reads or writes.  Every field is optional, mirroring `meta.get(key, default)`
on a Python dict. -/
structure Meta where
  name : Option String
  language : Option String
  tags : Option (List String)
  created : Option String
deriving DecidableEq, Repr

/-- A file in the snippets directory: either a raw text file (a snippet body,
stored verbatim) or a JSON metadata object. -/
inductive File where
  | text (contents : String)
  | meta (m : Meta)
deriving DecidableEq, Repr

/-- An abstract stand-in for `json.dump(meta)`: the text a reader would see in
a metadata file.  Its exact shape is irrelevant to every claim (no operation
under verification reads a metadata file as raw text). -/
def metaDump (m : Meta) : String :=
  String.intercalate "\n"
    [m.name.getD "null", m.language.getD "null",
     String.intercalate "," (m.tags.getD []), m.created.getD "null"]

/-- Reading a file's raw text (`open(p).read()`). -/
def File.readText : File → String
  | .text s => s
  | .meta m => metaDump m

/-- `json.load` on a stored file.  A metadata file parses to its record;
loading a raw snippet body as JSON is modelled as a parse failure
(`none`, which the operations propagate as an exception). -/
def jsonLoad : File → Option Meta
  | .meta m => some m
  | .text _ => none

/-- The snippets directory: file name → file contents, in directory order. -/
abbrev FS := List (String × File)

/-! ## Storage operations (storage.py lines 93–233) -/

/-- `get_snippet_paths`: `(code_path, meta_path)` for a name and language. -/
def get_snippet_paths (name language : String) : String × String :=
  let safe := sanitize_name name
  (safe ++ get_extension language, safe ++ ".meta.json")

/-- `find_snippet_files`: locate the existing files of a snippet.  The
content path is looked up under the extension of the language recorded in
the metadata file (`meta.get("language", "text")`). -/
def find_snippet_files (fs : FS) (name : String) :
    Except Unit (Option String × Option String) :=
  let safe := sanitize_name name
  let meta_path := safe ++ ".meta.json"
  match aGet fs meta_path with
  | none => .ok (none, none)
  | some file =>
    match jsonLoad file with
    | none => .error ()
    | some meta =>
      let ext := get_extension (meta.language.getD "text")
      let code_path := safe ++ ext
      if (aGet fs code_path).isSome then .ok (some code_path, some meta_path)
      else .ok (none, some meta_path)

/-- `add_snippet`: write the code file, then the metadata file.  `now` is the
`datetime.now().isoformat()` timestamp, passed explicitly.  Python's
`tags or []` yields `[]` both for `None` and for `[]`, i.e. `tags.getD []`. -/
def add_snippet (fs : FS) (name code language : String)
    (tags : Option (List String)) (now : String) : FS :=
  let paths := get_snippet_paths name language
  let fs1 := aInsert fs paths.1 (.text code)
  aInsert fs1 paths.2
    (.meta { name := some name, language := some language,
             tags := some (tags.getD []), created := some now })

/-- The record returned by `get_snippet`: the metadata dict with a `code`
key merged in. -/
structure Snippet where
  name : Option String
  language : Option String
  tags : Option (List String)
  created : Option String
  code : String
deriving DecidableEq, Repr

/-- `get_snippet`: `Except.ok none` is Python's `None` ("not found");
a missing content file yields `code = ""`. -/
def get_snippet (fs : FS) (name : String) : Except Unit (Option Snippet) :=
  match find_snippet_files fs name with
  | .error e => .error e
  | .ok (code_path, meta_path) =>
    match meta_path with
    | none => .ok none
    | some mp =>
      match aGet fs mp with
      | none => .ok none
      | some file =>
        match jsonLoad file with
        | none => .error ()
        | some meta =>
          let code :=
            match code_path with
            | some cp =>
              match aGet fs cp with
              | some f => f.readText
              | none => ""
            | none => ""
          .ok (some { name := meta.name, language := meta.language,
                      tags := meta.tags, created := meta.created, code := code })

/-- `delete_snippet`: unlink whichever of the two files exist; `false` when
the metadata file was not found. -/
def delete_snippet (fs : FS) (name : String) : Except Unit (FS × Bool) :=
  match find_snippet_files fs name with
  | .error e => .error e
  | .ok (code_path, meta_path) =>
    match meta_path with
    | none => .ok (fs, false)
    | some mp =>
      let fs1 :=
        match code_path with
        | some cp => if (aGet fs cp).isSome then aErase fs cp else fs
        | none => fs
      let fs2 := if (aGet fs1 mp).isSome then aErase fs1 mp else fs1
      .ok (fs2, true)

/-- `update_snippet_meta`: reload the metadata, replace the `tags` field when
a new value is supplied, and rewrite the metadata file. -/
def update_snippet_meta (fs : FS) (name : String) (tags : Option (List String)) :
    Except Unit (FS × Bool) :=
  match find_snippet_files fs name with
  | .error e => .error e
  | .ok (_, meta_path) =>
    match meta_path with
    | none => .ok (fs, false)
    | some mp =>
      match aGet fs mp with
      | none => .ok (fs, false)
      | some file =>
        match jsonLoad file with
        | none => .error ()
        | some meta =>
          let meta' :=
            match tags with
            | none => meta
            | some t => { meta with tags := some t }
          .ok (aInsert fs mp (.meta meta'), true)

/-- Python `pathlib.Path(s).stem`: the file name with its last extension
removed (a dot at index 0 does not begin an extension). -/
def pathStem (s : String) : String :=
  let n := s.data.length
  let k := (s.data.reverse.takeWhile (fun c => c ≠ '.')).length
  if n - 1 ≤ k then s else String.mk (s.data.take (n - 1 - k))

/-- Python `pathlib.Path(s).suffix`: the last extension, dot included, or
`""` when there is none. -/
def pathSuffix (s : String) : String :=
  let n := s.data.length
  let k := (s.data.reverse.takeWhile (fun c => c ≠ '.')).length
  if n - 1 ≤ k then "" else String.mk (s.data.drop (n - 1 - k))

/-- Python `s.replace(old, new)` on character lists: leftmost-first,
non-overlapping replacement of every occurrence. -/
def listReplace (old new : List Char) : List Char → List Char
  | [] => []
  | c :: rest =>
    if h : old ≠ [] ∧ old.isPrefixOf (c :: rest) then
      new ++ listReplace old new ((c :: rest).drop old.length)
    else c :: listReplace old new rest
termination_by l => l.length
decreasing_by
  · simp only [List.length_drop, List.length_cons]
    have hn : 1 ≤ old.length := by
      cases hc : old with
      | nil => exact absurd hc h.1
      | cons a as => simp
    omega
  · simp

/-- Python `s.replace(old, new)`. -/
def pyReplace (s old new : String) : String :=
  String.mk (listReplace old.data new.data s.data)

/-- The `glob("*.meta.json")` filter: `*` matches any (possibly empty) run of
characters but never a leading dot, and stored file names contain no path
separator. -/
def globMetaJson (p : String) : Bool :=
  ".meta.json".data.isSuffixOf p.data && !(['.'].isPrefixOf p.data)

/-- The loop body of `list_all_snippets`: fold over the directory entries,
keying the result dict by the recorded `name` field, with the filename-derived
fallback `meta_path.stem.replace(".meta", "")`. -/
def list_all_aux : FS → List (String × Meta) → Except Unit (List (String × Meta))
  | [], acc => .ok acc
  | (p, file) :: rest, acc =>
    if globMetaJson p then
      match jsonLoad file with
      | none => .error ()
      | some meta =>
        list_all_aux rest
          (aInsert acc (meta.name.getD (pyReplace (pathStem p) ".meta" "")) meta)
    else list_all_aux rest acc

/-- `list_all_snippets`: every parsed metadata file, keyed by recorded name. -/
def list_all_snippets (fs : FS) : Except Unit (List (String × Meta)) :=
  list_all_aux fs []

/-- Is `needle` a contiguous sublist of `hay`?  (Python's `needle in hay`.) -/
def listContains : List Char → List Char → Bool
  | hay, needle =>
    match hay with
    | [] => needle.isEmpty
    | _ :: rest => needle.isPrefixOf hay || listContains rest needle

/-- Python's `needle in hay` on strings. -/
def strContains (hay needle : String) : Bool := listContains hay.data needle.data

/-- The match condition of `search_snippets` (query already lowercased). -/
def matchQuery (query name : String) (data : Meta) : Bool :=
  strContains (strToLower name) query
  || strContains (strToLower (data.language.getD "")) query
  || (data.tags.getD []).any (fun t => strContains (strToLower t) query)

/-- The loop of `search_snippets`: insert each matching record into the
results dict. -/
def search_aux (q : String) : List (String × Meta) → List (String × Meta) →
    List (String × Meta)
  | [], results => results
  | (name, data) :: rest, results =>
    if matchQuery q name data then search_aux q rest (aInsert results name data)
    else search_aux q rest results

/-- `search_snippets`: case-insensitive substring search over `list_all`. -/
def search_snippets (fs : FS) (query : String) : Except Unit (List (String × Meta)) :=
  match list_all_snippets fs with
  | .error e => .error e
  | .ok snippets => .ok (search_aux (strToLower query) snippets [])

/-! ## The CLI guards under verification (cli.py `add` and `import`) -/

/-- Python `str.isspace` members stripped by a bare `str.strip()` (ASCII). -/
def pyIsSpace (c : Char) : Bool :=
  c == ' ' || c == '\t' || c == '\n' || c == '\r' || c == '\x0b' || c == '\x0c'

/-- Python `s.strip()` (no arguments): strip whitespace from both ends. -/
def pyStripWs (s : String) : String :=
  String.mk (List.rdropWhile pyIsSpace (List.dropWhile pyIsSpace s.data))

/-- The `snip add` command: reject an invalid name, then an empty body, then
store the snippet.  `none` models `SystemExit(1)` before any write. -/
def cli_add (fs : FS) (name language : String) (tags : List String)
    (stdin now : String) : Option FS :=
  if sanitize_name name = "unnamed" then none
  else if pyStripWs stdin = "" then none
  else some (add_snippet fs name stdin language (some tags) now)

/-- The reverse-lookup loop of `snip import`: first table entry whose
extension equals `ext`, else `"text"`. -/
def reverseLookupLanguage (ext : String) : String :=
  match LANG_EXTENSIONS.find? (fun kv => kv.2 == ext) with
  | some kv => kv.1
  | none => "text"

/-- The `snip import` command: default the name to the file's stem, reject an
invalid name, detect the language from the extension when not supplied, and
store the snippet.  `none` models `SystemExit(1)` before any write.  A `none`
or empty option value is falsy in Python, hence the two-level defaulting. -/
def cli_import (fs : FS) (fileName fileContents : String)
    (nameOpt languageOpt : Option String) (tags : List String) (now : String) :
    Option FS :=
  let name :=
    match nameOpt with
    | none => pathStem fileName
    | some n => if n = "" then pathStem fileName else n
  if sanitize_name name = "unnamed" then none
  else
    let language :=
      match languageOpt with
      | none => reverseLookupLanguage (strToLower (pathSuffix fileName))
      | some l =>
        if l = "" then reverseLookupLanguage (strToLower (pathSuffix fileName)) else l
    some (add_snippet fs name fileContents language (some tags) now)

/-! ## Helper lemmas about `sanitize_name` -/

theorem replaceBad_not_bad (c : Char) : badChar (replaceBad c) = false := by
  unfold replaceBad
  by_cases h : badChar c = true
  · rw [if_pos h]; decide
  · rw [if_neg h]; exact eq_false_of_ne_true h

theorem replaceBad_fix (c : Char) (h : badChar c = false) : replaceBad c = c := by
  unfold replaceBad
  rw [if_neg]
  simp [h]

theorem map_replaceBad_fix (l : List Char) (h : ∀ c ∈ l, badChar c = false) :
    l.map replaceBad = l := by
  induction l with
  | nil => rfl
  | cons c rest ih =>
    rw [List.map_cons, replaceBad_fix c (h c (by simp)),
        ih (fun d hd => h d (by simp [hd]))]

theorem dropWhile_eq_self_of_append {α : Type} (p : α → Bool) (r t : List α)
    (h : List.dropWhile p (r ++ t) = r ++ t) : List.dropWhile p r = r := by
  cases r with
  | nil => rfl
  | cons a r' =>
    have ha : p a = false := by
      by_cases hpa : p a = true
      · rw [List.cons_append, List.dropWhile_cons_of_pos hpa] at h
        have hlen := congrArg List.length h
        have hle := (@List.dropWhile_suffix _ (r' ++ t) p).length_le
        simp only [List.length_cons, List.length_append] at hlen hle
        omega
      · exact eq_false_of_ne_true hpa
    rw [List.dropWhile_cons_of_neg (by simp [ha])]

theorem dropWhile_stripEnds (l : List Char) :
    List.dropWhile stripDot (stripEnds l) = stripEnds l := by
  unfold stripEnds
  obtain ⟨t, ht⟩ := List.rdropWhile_prefix stripDot (List.dropWhile stripDot l)
  apply dropWhile_eq_self_of_append stripDot _ t
  rw [ht]
  exact List.dropWhile_idempotent _ _

theorem stripEnds_idem (l : List Char) : stripEnds (stripEnds l) = stripEnds l := by
  rw [show stripEnds (stripEnds l) =
        List.rdropWhile stripDot (List.dropWhile stripDot (stripEnds l)) from rfl,
      dropWhile_stripEnds]
  unfold stripEnds
  exact List.rdropWhile_idempotent _ _

theorem stripEnds_subset (l : List Char) : stripEnds l ⊆ l := by
  intro c hc
  have h1 := ( List.rdropWhile_prefix stripDot (List.dropWhile stripDot l)).subset hc
  exact ( List.dropWhile_suffix stripDot).subset h1

theorem sanitize_name_eq (n : String) :
    sanitize_name n =
      if stripEnds (n.data.map replaceBad) = [] then "unnamed"
      else String.mk (stripEnds (n.data.map replaceBad)) := rfl

/-- C6: `sanitize` is idempotent: for every string `n`,
`sanitize(sanitize(n))` equals `sanitize(n)`. -/
theorem sanitize_name_idem (n : String) :
    sanitize_name (sanitize_name n) = sanitize_name n := by
  by_cases hs : stripEnds (n.data.map replaceBad) = []
  · rw [sanitize_name_eq n, if_pos hs]
    decide
  · rw [sanitize_name_eq n, if_neg hs]
    have hmap : (stripEnds (n.data.map replaceBad)).map replaceBad =
        stripEnds (n.data.map replaceBad) := by
      apply map_replaceBad_fix
      intro c hc
      obtain ⟨d, _, rfl⟩ := List.mem_map.mp (stripEnds_subset _ hc)
      exact replaceBad_not_bad d
    rw [sanitize_name_eq]
    show (if stripEnds ((stripEnds (n.data.map replaceBad)).map replaceBad) = []
          then "unnamed"
          else String.mk (stripEnds ((stripEnds (n.data.map replaceBad)).map replaceBad)))
        = String.mk (stripEnds (n.data.map replaceBad))
    rw [hmap, stripEnds_idem, if_neg hs]

/-! ## C1: the language → extension table -/

/-- C1 counterexample: the table has no `js` and no `sh` key (both fall back
to `.txt`), and `zsh` maps to `.zsh` while `bash` maps to `.sh`, so neither
the `js`/`javascript` nor the `sh`/`bash`/`zsh` group shares one extension. -/
theorem get_extension_alias_counterexample :
    get_extension "js" = ".txt" ∧ get_extension "javascript" = ".js" ∧
    get_extension "js" ≠ get_extension "javascript" ∧
    get_extension "sh" = ".txt" ∧ get_extension "bash" = ".sh" ∧
    get_extension "zsh" = ".zsh" ∧
    get_extension "zsh" ≠ get_extension "bash" := by
  refine ⟨by decide, by decide, by decide, by decide, by decide, by decide, by decide⟩

/-- C1 (amended): the lookup is case-insensitive and returns `.txt` for an
empty or unknown language; the `yml`/`yaml` and `c++`/`cpp` alias groups each
share one extension (but `js`, `sh` are unknown identifiers, and `zsh` differs
from `bash` — see the counterexample). -/
theorem get_extension_spec :
    (∀ s t : String, strToLower s = strToLower t →
      get_extension s = get_extension t) ∧
    get_extension "" = ".txt" ∧
    (∀ s : String, strToLower s ∉ LANG_EXTENSIONS.map Prod.fst →
      get_extension s = ".txt") ∧
    get_extension "yml" = get_extension "yaml" ∧
    get_extension "c++" = get_extension "cpp" := by
  refine ⟨?_, by decide, ?_, by decide, by decide⟩
  · intro s t h
    unfold get_extension
    rw [h]
  · intro s h
    unfold get_extension
    rw [aGet_eq_none_of_not_mem_keys _ _ h]
    rfl

/-- Witness for C1 (amended) at concrete inputs. -/
theorem get_extension_spec_witness :
    get_extension "PyThOn" = get_extension "python" ∧
    get_extension "elvish" = ".txt" :=
  ⟨get_extension_spec.1 "PyThOn" "python" (by decide),
   get_extension_spec.2.2.1 "elvish" (by decide)⟩

/-! ## C5: the shape of `sanitize_name` -/

theorem rdropWhile_append_rtakeWhile {α : Type} (p : α → Bool) (l : List α) :
    List.rdropWhile p l ++ List.rtakeWhile p l = l := by
  rw [List.rdropWhile, List.rtakeWhile, ← List.reverse_append,
      List.takeWhile_append_dropWhile, List.reverse_reverse]

theorem stripEnds_head? (l : List Char) (c : Char)
    (hc : (stripEnds l).head? = some c) : stripDot c = false := by
  have h2 := List.head?_dropWhile_not stripDot (stripEnds l)
  rw [dropWhile_stripEnds, hc] at h2
  exact h2

theorem stripEnds_getLast? (l : List Char) (c : Char)
    (hc : (stripEnds l).getLast? = some c) : stripDot c = false := by
  have h1 : (stripEnds l).reverse =
      List.dropWhile stripDot (List.dropWhile stripDot l).reverse := by
    unfold stripEnds List.rdropWhile
    rw [List.reverse_reverse]
  have h2 := List.head?_dropWhile_not stripDot (List.dropWhile stripDot l).reverse
  rw [← h1, List.head?_reverse, hc] at h2
  exact h2

/-- C5: `sanitize` replaces each of the characters `< > : " / \ | ? *` by one
underscore (one-for-one, via `map`), then strips all leading and trailing
spaces and dots (the stripped pieces consist of such characters only, and the
kept middle neither starts nor ends with one), and falls back to the literal
`"unnamed"` when nothing remains; concretely `sanitize("...") = "unnamed"`
and `sanitize("  a.b  ") = "a.b"`. -/
theorem sanitize_name_spec :
    sanitize_name "..." = "unnamed" ∧
    sanitize_name "  a.b  " = "a.b" ∧
    (∀ c, badChar c = true ↔
      c ∈ ['<', '>', ':', '"', '/', '\\', '|', '?', '*']) ∧
    (∀ c, replaceBad c = if badChar c then '_' else c) ∧
    (∀ c, stripDot c = true ↔ c = '.' ∨ c = ' ') ∧
    ∀ n : String, ∃ pre mid post : List Char,
      n.data.map replaceBad = pre ++ mid ++ post ∧
      (∀ c ∈ pre, stripDot c = true) ∧
      (∀ c ∈ post, stripDot c = true) ∧
      (∀ c, mid.head? = some c → stripDot c = false) ∧
      (∀ c, mid.getLast? = some c → stripDot c = false) ∧
      sanitize_name n = (if mid = [] then "unnamed" else String.mk mid) := by
  refine ⟨by decide, by decide, ?_, fun c => rfl, ?_, ?_⟩
  · intro c
    simp [badChar]
    tauto
  · intro c
    simp [stripDot]
  · intro n
    refine ⟨(n.data.map replaceBad).takeWhile stripDot,
            stripEnds (n.data.map replaceBad),
            List.rtakeWhile stripDot ((n.data.map replaceBad).dropWhile stripDot),
            ?_, ?_, ?_, ?_, ?_, sanitize_name_eq n⟩
    · rw [List.append_assoc]
      unfold stripEnds
      rw [rdropWhile_append_rtakeWhile, List.takeWhile_append_dropWhile]
    · intro c hc
      exact List.mem_takeWhile_imp hc
    · intro c hc
      exact List.mem_rtakeWhile_imp hc
    · exact stripEnds_head? _
    · exact stripEnds_getLast? _

/-! ## Helper lemmas about paths and `get_snippet` -/

theorem get_extension_ne_metaJson (language : String) :
    get_extension language ≠ ".meta.json" := by
  unfold get_extension
  cases h : aGet LANG_EXTENSIONS (strToLower language) with
  | none => decide
  | some v =>
    have hv := aGet_mem_values _ _ _ h
    have hall : ∀ x ∈ LANG_EXTENSIONS.map Prod.snd, x ≠ ".meta.json" := by decide
    simpa using hall v hv

theorem append_ne_of_ne (s a b : String) (h : a ≠ b) : s ++ a ≠ s ++ b := by
  intro he
  apply h
  have hd := congrArg String.data he
  simp only [String.data_append] at hd
  exact String.ext (List.append_cancel_left hd)

theorem codePath_ne_metaPath (name language : String) :
    sanitize_name name ++ get_extension language ≠
      sanitize_name name ++ ".meta.json" :=
  append_ne_of_ne _ _ _ (get_extension_ne_metaJson language)

theorem get_snippet_of_meta (fs : FS) (name : String) (m : Meta)
    (h : aGet fs (sanitize_name name ++ ".meta.json") = some (.meta m)) :
    get_snippet fs name = .ok (some
      { name := m.name, language := m.language, tags := m.tags,
        created := m.created,
        code := (aGet fs (sanitize_name name ++
          get_extension (m.language.getD "text"))).elim "" File.readText }) := by
  rcases hcp : aGet fs (sanitize_name name ++ get_extension (m.language.getD "text"))
      with _ | f <;>
    simp [get_snippet, find_snippet_files, h, hcp, jsonLoad]

theorem get_snippet_no_meta (fs : FS) (name : String)
    (h : aGet fs (sanitize_name name ++ ".meta.json") = none) :
    get_snippet fs name = .ok none := by
  simp [get_snippet, find_snippet_files, h]

/-! ## C2: add / get round trip -/

/-- C2: for every starting state, name, code string, language and tag list,
`add` immediately followed by `get` returns a record whose `code`, `language`
(original case) and `tags` (order preserved) are exactly what was written. -/
theorem add_get_round_trip (fs : FS) (name code language now : String)
    (tags : List String) :
    get_snippet (add_snippet fs name code language (some tags) now) name =
      .ok (some { name := some name, language := some language,
                  tags := some tags, created := some now, code := code }) := by
  have hadd : add_snippet fs name code language (some tags) now =
      aInsert (aInsert fs (sanitize_name name ++ get_extension language)
                 (.text code))
        (sanitize_name name ++ ".meta.json")
        (.meta { name := some name, language := some language,
                 tags := some tags, created := some now }) := rfl
  rw [hadd]
  set cp := sanitize_name name ++ get_extension language with hcpdef
  set mp := sanitize_name name ++ ".meta.json" with hmpdef
  set M : Meta := { name := some name, language := some language,
                    tags := some tags, created := some now } with hMdef
  set fs' := aInsert (aInsert fs cp (.text code)) mp (.meta M) with hfs
  have hmp : aGet fs' mp = some (.meta M) := aGet_aInsert_self _ _ _
  have hext : get_extension (M.language.getD "text") = get_extension language := rfl
  have hcp : aGet fs' (sanitize_name name ++
      get_extension (M.language.getD "text")) = some (.text code) := by
    rw [hext, ← hcpdef, hfs,
        aGet_aInsert_ne _ _ _ _ (codePath_ne_metaPath name language)]
    exact aGet_aInsert_self _ _ _
  rw [get_snippet_of_meta fs' name M hmp, hcp]
  rfl

/-! ## C3: `get` derives the content path from the stored language -/

/-- C3: when the metadata file of `sanitize(name)` holds record `m`, `get`
returns the record with `code` read from the file at
`sanitize(name) + extension(m.language or "text")` — the extension comes
from the stored metadata, not from any caller-supplied language — and when
that content file does not exist the result has `code = ""` instead of an
error. -/
theorem get_snippet_stored_language (fs : FS) (name : String) (m : Meta)
    (h : aGet fs (sanitize_name name ++ ".meta.json") = some (.meta m)) :
    get_snippet fs name = .ok (some
      { name := m.name, language := m.language, tags := m.tags,
        created := m.created,
        code := (aGet fs (sanitize_name name ++
          get_extension (m.language.getD "text"))).elim "" File.readText }) ∧
    (aGet fs (sanitize_name name ++
        get_extension (m.language.getD "text")) = none →
      get_snippet fs name = .ok (some
        { name := m.name, language := m.language, tags := m.tags,
          created := m.created, code := "" })) := by
  refine ⟨get_snippet_of_meta fs name m h, fun hcp => ?_⟩
  rw [get_snippet_of_meta fs name m h, hcp]
  rfl

/-- Witness for C3: an orphaned metadata file with no sibling content file
yields the record with empty code. -/
theorem get_snippet_stored_language_witness :
    get_snippet [("orphan.meta.json",
        File.meta { name := some "orphan", language := some "python",
                    tags := some [], created := none })] "orphan" =
      .ok (some { name := some "orphan", language := some "python",
                  tags := some [], created := none, code := "" }) := by
  have h := (get_snippet_stored_language
    [("orphan.meta.json",
      File.meta { name := some "orphan", language := some "python",
                  tags := some [], created := none })] "orphan"
    { name := some "orphan", language := some "python",
      tags := some [], created := none } (by decide)).2 (by decide)
  exact h

/-! ## C4: delete -/

/-- C4: `delete` on a name whose metadata file is absent reports `false` and
leaves the directory untouched; when the metadata file exists it unlinks the
content file if (and only if) it exists, always unlinks the metadata file,
reports `true` regardless of whether the content file existed, and a
subsequent `get` reports not-found. -/
theorem delete_snippet_spec (fs : FS) (name : String) :
    (aGet fs (sanitize_name name ++ ".meta.json") = none →
      delete_snippet fs name = .ok (fs, false)) ∧
    ∀ m, aGet fs (sanitize_name name ++ ".meta.json") = some (.meta m) →
      delete_snippet fs name =
        .ok (aErase
              (if (aGet fs (sanitize_name name ++
                     get_extension (m.language.getD "text"))).isSome
               then aErase fs (sanitize_name name ++
                     get_extension (m.language.getD "text"))
               else fs)
              (sanitize_name name ++ ".meta.json"), true) ∧
      get_snippet (aErase
              (if (aGet fs (sanitize_name name ++
                     get_extension (m.language.getD "text"))).isSome
               then aErase fs (sanitize_name name ++
                     get_extension (m.language.getD "text"))
               else fs)
              (sanitize_name name ++ ".meta.json")) name = .ok none := by
  constructor
  · intro h
    simp [delete_snippet, find_snippet_files, h]
  · intro m h
    have hne : sanitize_name name ++ get_extension (m.language.getD "text") ≠
        sanitize_name name ++ ".meta.json" :=
      codePath_ne_metaPath name (m.language.getD "text")
    cases hcpv : aGet fs (sanitize_name name ++
        get_extension (m.language.getD "text")) with
    | none =>
      refine ⟨?_, ?_⟩
      · simp [delete_snippet, find_snippet_files, h, hcpv, jsonLoad]
      · rw [if_neg (by simp [hcpv])]
        exact get_snippet_no_meta _ _ (aGet_aErase_self _ _)
    | some f =>
      have hmp1 : aGet (aErase fs (sanitize_name name ++
          get_extension (m.language.getD "text")))
          (sanitize_name name ++ ".meta.json") =
          some (.meta m) := by
        rw [aGet_aErase_ne _ _ _ (Ne.symm hne)]
        exact h
      refine ⟨?_, ?_⟩
      · simp [delete_snippet, find_snippet_files, h, hcpv, jsonLoad, hmp1]
      · rw [if_pos (by simp [hcpv])]
        exact get_snippet_no_meta _ _ (aGet_aErase_self _ _)

/-- Witness for C4: both branches at concrete stores. -/
theorem delete_snippet_spec_witness :
    delete_snippet ([] : FS) "x" = .ok ([], false) ∧
    delete_snippet [("x.meta.json",
        File.meta { name := some "x", language := some "python",
                    tags := some [], created := some "T" })] "x" =
      .ok ([], true) ∧
    get_snippet ([] : FS) "x" = .ok none := by
  have h1 := (delete_snippet_spec ([] : FS) "x").1 (by decide)
  have h2 := (delete_snippet_spec [("x.meta.json",
      File.meta { name := some "x", language := some "python",
                  tags := some [], created := some "T" })] "x").2
    { name := some "x", language := some "python",
      tags := some [], created := some "T" } (by decide)
  refine ⟨h1, ?_, ?_⟩
  · rw [h2.1]
    rfl
  · exact h2.2

/-! ## C7: update_snippet_meta with a new tag list -/

/-- C7: `update_metadata(name, tags=T)` reports not-found when the metadata
file is absent; otherwise it rewrites only the metadata file, changing only
the `tags` field (`name`, `language`, `created` are carried over), touches no
other file, and a subsequent `get` shows the new tags with everything else —
including the code — as before. -/
theorem update_snippet_meta_spec (fs : FS) (name : String) (T : List String) :
    (aGet fs (sanitize_name name ++ ".meta.json") = none →
      update_snippet_meta fs name (some T) = .ok (fs, false)) ∧
    ∀ m, aGet fs (sanitize_name name ++ ".meta.json") = some (.meta m) →
      update_snippet_meta fs name (some T) =
        .ok (aInsert fs (sanitize_name name ++ ".meta.json")
              (.meta { name := m.name, language := m.language,
                       tags := some T, created := m.created }), true) ∧
      (∀ p, p ≠ sanitize_name name ++ ".meta.json" →
        aGet (aInsert fs (sanitize_name name ++ ".meta.json")
              (.meta { name := m.name, language := m.language,
                       tags := some T, created := m.created })) p = aGet fs p) ∧
      get_snippet (aInsert fs (sanitize_name name ++ ".meta.json")
              (.meta { name := m.name, language := m.language,
                       tags := some T, created := m.created })) name =
        .ok (some { name := m.name, language := m.language, tags := some T,
                    created := m.created,
                    code := (aGet fs (sanitize_name name ++
                      get_extension (m.language.getD "text"))).elim
                      "" File.readText }) := by
  constructor
  · intro h
    simp [update_snippet_meta, find_snippet_files, h]
  · intro m h
    set m' : Meta := { name := m.name, language := m.language,
                       tags := some T, created := m.created } with hm'
    have hne : sanitize_name name ++ get_extension (m.language.getD "text") ≠
        sanitize_name name ++ ".meta.json" :=
      codePath_ne_metaPath name (m.language.getD "text")
    refine ⟨?_, ?_, ?_⟩
    · cases hcpv : aGet fs (sanitize_name name ++
          get_extension (m.language.getD "text")) with
      | none => simp [update_snippet_meta, find_snippet_files, h, hcpv, jsonLoad, hm']
      | some f => simp [update_snippet_meta, find_snippet_files, h, hcpv, jsonLoad, hm']
    · intro p hp
      exact aGet_aInsert_ne _ _ _ _ hp
    · have hmp : aGet (aInsert fs (sanitize_name name ++ ".meta.json")
          (.meta m')) (sanitize_name name ++ ".meta.json") = some (.meta m') :=
        aGet_aInsert_self _ _ _
      have hcp : aGet (aInsert fs (sanitize_name name ++ ".meta.json")
            (.meta m')) (sanitize_name name ++
            get_extension (m'.language.getD "text")) =
          aGet fs (sanitize_name name ++
            get_extension (m.language.getD "text")) := by
        exact aGet_aInsert_ne _ _ _ _ hne
      rw [get_snippet_of_meta _ name m' hmp, hcp]

/-- Witness for C7 at a concrete store. -/
theorem update_snippet_meta_spec_witness :
    update_snippet_meta ([] : FS) "x" (some ["t"]) = .ok ([], false) ∧
    update_snippet_meta [("x.meta.json",
        File.meta { name := some "x", language := some "python",
                    tags := some ["old"], created := some "T" })] "x"
        (some ["new"]) =
      .ok ([("x.meta.json",
        File.meta { name := some "x", language := some "python",
                    tags := some ["new"], created := some "T" })], true) := by
  have h1 := (update_snippet_meta_spec ([] : FS) "x" ["t"]).1 (by decide)
  have h2 := (update_snippet_meta_spec [("x.meta.json",
      File.meta { name := some "x", language := some "python",
                  tags := some ["old"], created := some "T" })] "x" ["new"]).2
    { name := some "x", language := some "python",
      tags := some ["old"], created := some "T" } (by decide)
  refine ⟨h1, ?_⟩
  rw [h2.1]
  rfl

/-! ## C9: update_snippet_meta with no new tags -/

/-- C9: `update_snippet_meta` on an existing snippet with `tags = None`
reports `true` and rewrites the metadata file with the identical record, so
every metadata field keeps its previous value and the whole store is
observationally unchanged. -/
theorem update_snippet_meta_none_spec (fs : FS) (name : String) (m : Meta)
    (h : aGet fs (sanitize_name name ++ ".meta.json") = some (.meta m)) :
    update_snippet_meta fs name none =
      .ok (aInsert fs (sanitize_name name ++ ".meta.json") (.meta m), true) ∧
    ∀ p, aGet (aInsert fs (sanitize_name name ++ ".meta.json") (.meta m)) p =
      aGet fs p := by
  constructor
  · cases hcpv : aGet fs (sanitize_name name ++
        get_extension (m.language.getD "text")) with
    | none => simp [update_snippet_meta, find_snippet_files, h, hcpv, jsonLoad]
    | some f => simp [update_snippet_meta, find_snippet_files, h, hcpv, jsonLoad]
  · exact aGet_aInsert_eq_of_aGet _ _ _ h

/-- Witness for C9 at a concrete store. -/
theorem update_snippet_meta_none_spec_witness :
    update_snippet_meta [("x.meta.json",
        File.meta { name := some "x", language := some "python",
                    tags := some ["old"], created := some "T" })] "x" none =
      .ok ([("x.meta.json",
        File.meta { name := some "x", language := some "python",
                    tags := some ["old"], created := some "T" })], true) := by
  have h2 := (update_snippet_meta_none_spec [("x.meta.json",
      File.meta { name := some "x", language := some "python",
                  tags := some ["old"], created := some "T" })] "x"
    { name := some "x", language := some "python",
      tags := some ["old"], created := some "T" } (by decide)).1
  rw [h2]
  rfl

/-! ## C8: search is a filter of list_all -/

theorem listContains_iff (hay needle : List Char) :
    listContains hay needle = true ↔ List.IsInfix needle hay := by
  induction hay with
  | nil => simp [listContains, List.isEmpty_iff]
  | cons a rest ih =>
    simp [listContains, Bool.or_eq_true, ih, List.isPrefixOf_iff_prefix,
          List.infix_cons_iff]

theorem mem_keys_aInsert {α : Type} (l : List (String × α)) (k : String) (v : α)
    (q : String) :
    q ∈ (aInsert l k v).map Prod.fst ↔ q ∈ l.map Prod.fst ∨ q = k := by
  induction l with
  | nil => simp [aInsert]
  | cons kv rest ih =>
    obtain ⟨r, w⟩ := kv
    by_cases hr : r = k
    · subst hr
      simp [aInsert]
      tauto
    · simp [aInsert, hr, ih]
      tauto

theorem nodup_keys_aInsert {α : Type} (l : List (String × α)) (k : String) (v : α)
    (h : (l.map Prod.fst).Nodup) : ((aInsert l k v).map Prod.fst).Nodup := by
  induction l with
  | nil => simp [aInsert]
  | cons kv rest ih =>
    obtain ⟨r, w⟩ := kv
    simp only [List.map_cons, List.nodup_cons] at h
    by_cases hr : r = k
    · subst hr
      simpa [aInsert, List.nodup_cons] using h
    · simp only [aInsert, if_neg hr, List.map_cons, List.nodup_cons]
      refine ⟨?_, ih h.2⟩
      intro hmem
      rcases (mem_keys_aInsert rest k v r).mp hmem with h1 | h2
      · exact h.1 h1
      · exact hr h2

theorem aInsert_eq_append_of_not_mem {α : Type} (l : List (String × α))
    (k : String) (v : α) (h : k ∉ l.map Prod.fst) :
    aInsert l k v = l ++ [(k, v)] := by
  induction l with
  | nil => rfl
  | cons kv rest ih =>
    obtain ⟨r, w⟩ := kv
    have hr : r ≠ k := by
      intro hh
      exact h (by simp [hh])
    have h2 : k ∉ rest.map Prod.fst := by
      intro hh
      exact h (by simp [hh])
    simp [aInsert, hr, ih h2]

theorem nodup_keys_list_all_aux (fs : FS) :
    ∀ acc res : List (String × Meta), (acc.map Prod.fst).Nodup →
      list_all_aux fs acc = .ok res → (res.map Prod.fst).Nodup := by
  induction fs with
  | nil =>
    intro acc res h heq
    simp only [list_all_aux, Except.ok.injEq] at heq
    exact heq ▸ h
  | cons pf rest ih =>
    obtain ⟨p, file⟩ := pf
    intro acc res h heq
    by_cases hg : globMetaJson p = true
    · rw [list_all_aux, if_pos hg] at heq
      cases hj : jsonLoad file with
      | none => rw [hj] at heq; cases heq
      | some m =>
        rw [hj] at heq
        exact ih _ _ (nodup_keys_aInsert _ _ _ h) heq
    · rw [list_all_aux, if_neg hg] at heq
      exact ih _ _ h heq

theorem search_aux_eq (q : String) (l : List (String × Meta)) :
    ∀ acc : List (String × Meta), (l.map Prod.fst).Nodup →
      (∀ k ∈ l.map Prod.fst, k ∉ acc.map Prod.fst) →
      search_aux q l acc = acc ++ l.filter (fun kv => matchQuery q kv.1 kv.2) := by
  induction l with
  | nil =>
    intro acc _ _
    simp [search_aux]
  | cons nd rest ih =>
    obtain ⟨n, d⟩ := nd
    intro acc hnod hdisj
    simp only [List.map_cons, List.nodup_cons] at hnod
    have hn : n ∉ acc.map Prod.fst := hdisj n (by simp)
    have hstep : search_aux q ((n, d) :: rest) acc =
        if matchQuery q n d then search_aux q rest (aInsert acc n d)
        else search_aux q rest acc := rfl
    cases hm : matchQuery q n d with
    | true =>
      rw [hstep, if_pos hm, aInsert_eq_append_of_not_mem acc n d hn,
          ih (acc ++ [(n, d)]) hnod.2 ?_]
      · simp [List.filter_cons, hm]
      · intro k hk
        simp only [List.map_append, List.mem_append, List.map_cons,
                   List.map_nil, List.mem_singleton]
        rintro (hka | rfl)
        · exact hdisj k (by simp [hk]) hka
        · exact hnod.1 hk
    | false =>
      rw [hstep, if_neg (by simp [hm]), ih acc hnod.2 ?_]
      · simp [List.filter_cons, hm]
      · intro k hk
        exact hdisj k (by simp [hk])

/-- C8: `search(q)` returns exactly the entries of `list_all()` whose name,
language, or one of whose tags contains `q` case-insensitively (the first
conjunct pins `strContains` down as real substring containment), preserving
`list_all`'s ordering — in particular the result is empty when nothing
matches. -/
theorem search_snippets_spec :
    (∀ hay needle : String,
      strContains hay needle = true ↔ List.IsInfix needle.data hay.data) ∧
    ∀ fs q, search_snippets fs q =
      (list_all_snippets fs).map
        (fun l => l.filter (fun kv => matchQuery (strToLower q) kv.1 kv.2)) := by
  refine ⟨fun hay needle => listContains_iff hay.data needle.data, ?_⟩
  intro fs q
  have hdef : search_snippets fs q =
      match list_all_snippets fs with
      | .error e => .error e
      | .ok snippets => .ok (search_aux (strToLower q) snippets []) := rfl
  cases hl : list_all_snippets fs with
  | error e =>
    rw [hdef, hl]
    rfl
  | ok snippets =>
    have hnod := nodup_keys_list_all_aux fs [] snippets (by simp) hl
    rw [hdef, hl]
    show Except.ok (search_aux (strToLower q) snippets []) = _
    rw [search_aux_eq (strToLower q) snippets [] hnod (by simp)]
    rfl

/-! ## C10: the CLI never creates a snippet named "unnamed" -/

/-- C10: the CLI `add` and `import` commands exit (before any write) for
every name whose sanitization is `"unnamed"`; since the literal name
`"unnamed"` is non-empty and sanitizes to itself, no snippet can ever be
created under the name `"unnamed"`. -/
theorem cli_no_unnamed_snippets :
    (∀ (fs : FS) (name language : String) (tags : List String) (stdin now : String),
      sanitize_name name = "unnamed" →
      cli_add fs name language tags stdin now = none) ∧
    (∀ (fs : FS) (fileName fileContents : String)
        (nameOpt languageOpt : Option String) (tags : List String) (now : String),
      sanitize_name (match nameOpt with
        | none => pathStem fileName
        | some n => if n = "" then pathStem fileName else n) = "unnamed" →
      cli_import fs fileName fileContents nameOpt languageOpt tags now = none) ∧
    sanitize_name "unnamed" = "unnamed" ∧ ("unnamed" : String) ≠ "" := by
  refine ⟨?_, ?_, by decide, by decide⟩
  · intro fs name language tags stdin now h
    simp [cli_add, h]
  · intro fs fileName fileContents nameOpt languageOpt tags now h
    simp [cli_import, h]

/-- Witness for C10: the literal name `"unnamed"` is rejected by both
commands. -/
theorem cli_no_unnamed_snippets_witness :
    cli_add [] "unnamed" "text" [] "code" "T" = none ∧
    cli_import [] "f.py" "x" (some "unnamed") none [] "T" = none :=
  ⟨cli_no_unnamed_snippets.1 [] "unnamed" "text" [] "code" "T" (by decide),
   cli_no_unnamed_snippets.2.1 [] "f.py" "x" (some "unnamed") none [] "T"
     (by decide)⟩

end Snip
